import Mathlib

/-!
Verification of the HEIC-to-JPEG batch converter (`main.go`).

The Go source is shallowly embedded: byte streams become `List Nat`
(each element a byte value), the destination sink is modelled as the
accumulated list of bytes it received (every sink write succeeds in
full, as it does for an ordinary file), Go maps become association
lists with map-update semantics, and Go code that can panic returns
`Option`.
-/

namespace HeicToJpeg

/-- The stateful skipping writer from `main.go` (`type writerSkipper`):
it discards the first `bytesToSkip` bytes written through it and
forwards the rest to the underlying sink. -/
structure writerSkipper where
  bytesToSkip : Nat
deriving Repr, DecidableEq

/-- `(*writerSkipper).Write` from `main.go`, for a sink that accepts every
byte (a regular file): given the current state and the buffer `data`,
returns the new state, the bytes forwarded to the underlying sink, and
the reported written count `n`. Mirrors the three branches of the Go
code: nothing left to skip; buffer shorter than the remaining skip;
skip boundary inside the buffer. -/
def writerSkipperWrite (w : writerSkipper) (data : List Nat) :
    writerSkipper × List Nat × Nat :=
  if w.bytesToSkip = 0 then
    (w, data, data.length)
  else if data.length < w.bytesToSkip then
    (⟨w.bytesToSkip - data.length⟩, [], data.length)
  else
    (⟨0⟩, data.drop w.bytesToSkip, data.length)

/-- A sequence of `Write` calls through the skipper, accumulating the
bytes that reach the underlying sink. -/
def writeAll : writerSkipper → List (List Nat) → writerSkipper × List Nat
  | w, [] => (w, [])
  | w, c :: cs =>
    let r := writerSkipperWrite w c
    let rest := writeAll r.1 cs
    (rest.1, r.2.1 ++ rest.2)

/-- The JPEG start-of-image marker written by `newWriterExif`. -/
def soi : List Nat := [0xff, 0xd8]

/-- `newWriterExif` from `main.go`: bytes written directly to the
underlying sink at construction time (the SOI marker, then — when an
EXIF blob is present — the APP1 marker segment and its payload),
paired with the skipper handed to the encoder (`bytesToSkip = 2`). -/
def newWriterExif (exif : Option (List Nat)) : List Nat × writerSkipper :=
  match exif with
  | none => (soi, ⟨2⟩)
  | some e =>
    let markerlen := 2 + e.length
    let marker := [0xff, 0xe1, (markerlen >>> 8) % 256, (markerlen &&& 0xff) % 256]
    (soi ++ marker ++ e, ⟨2⟩)

/-- All bytes the underlying destination sink receives when the encoder
emits the chunks `cs` through the writer built by `newWriterExif`. -/
def spliceOutput (exif : Option (List Nat)) (cs : List (List Nat)) : List Nat :=
  (newWriterExif exif).1 ++ (writeAll (newWriterExif exif).2 cs).2

theorem writeAll_out (k : Nat) (cs : List (List Nat)) :
    (writeAll ⟨k⟩ cs).2 = cs.flatten.drop k := by
  induction cs generalizing k with
  | nil => simp [writeAll]
  | cons c cs ih =>
    simp only [writeAll, writerSkipperWrite, List.flatten]
    by_cases h0 : k = 0
    · subst h0
      simp [ih]
    · simp only [h0, if_false]
      by_cases hlt : c.length < k
      · simp only [hlt, if_true]
        rw [ih]
        rw [List.drop_append_eq_append_drop]
        have h1 : c.drop k = [] := List.drop_eq_nil_of_le (Nat.le_of_lt hlt)
        simp [h1]
      · simp only [hlt, if_false]
        rw [ih]
        rw [List.drop_append_eq_append_drop]
        have h2 : k - c.length = 0 := Nat.sub_eq_zero_of_le (Nat.le_of_not_lt hlt)
        simp [h2]

theorem spliceOutput_eq (exif : Option (List Nat)) (cs : List (List Nat)) :
    spliceOutput exif cs = (newWriterExif exif).1 ++ cs.flatten.drop 2 := by
  have h : (newWriterExif exif).2 = ⟨2⟩ := by
    cases exif <;> rfl
  simp [spliceOutput, h, writeAll_out]

theorem newWriterExif_fst_take (exif : Option (List Nat)) :
    ((newWriterExif exif).1).take 2 = soi := by
  cases exif <;> rfl

/-- C3: the bytes reaching the underlying destination sink depend only
on the concatenation of the encoder's write buffers, not on how the
writes are chunked, and the first two bytes the sink receives are
always the 2-byte SOI start marker. -/
theorem encoder_chunking_invariant (exif : Option (List Nat))
    (cs1 cs2 : List (List Nat)) (h : cs1.flatten = cs2.flatten) :
    spliceOutput exif cs1 = spliceOutput exif cs2 ∧
    (spliceOutput exif cs1).take 2 = soi := by
  constructor
  · rw [spliceOutput_eq, spliceOutput_eq, h]
  · rw [spliceOutput_eq]
    rw [List.take_append_eq_append_take]
    have hlen : ((newWriterExif exif).1).length ≥ 2 := by
      cases exif <;> simp [newWriterExif, soi]
    have h2 : 2 - ((newWriterExif exif).1).length = 0 := Nat.sub_eq_zero_of_le hlen
    rw [h2, newWriterExif_fst_take]
    simp [soi]

theorem encoder_chunking_invariant_witness :
    [[10, 20, 30]].flatten = ([[10], [20], [30]] : List (List Nat)).flatten ∧
    spliceOutput (some [1]) [[10, 20, 30]] = spliceOutput (some [1]) [[10], [20], [30]] ∧
    (spliceOutput (some [1]) [[10, 20, 30]]).take 2 = soi := by
  refine ⟨by decide, ?_⟩
  exact encoder_chunking_invariant (some [1]) [[10, 20, 30]] [[10], [20], [30]] (by decide)

/-- C4: with an EXIF blob of length `L` such that `L + 2` fits below the
16-bit segment-length ceiling, the destination receives the SOI
marker, then the APP1 marker segment whose 2-byte big-endian length
field decodes to `L + 2`, then the blob itself, and only then the
encoder-originated bytes (minus their skipped 2-byte prefix). -/
theorem exif_marker_segment (e : List Nat) (cs : List (List Nat))
    (h : e.length + 2 < 65536) :
    spliceOutput (some e) cs =
      soi ++ [0xff, 0xe1, (2 + e.length) / 256, (2 + e.length) % 256]
        ++ e ++ cs.flatten.drop 2 ∧
    256 * ((2 + e.length) / 256) + (2 + e.length) % 256 = 2 + e.length ∧
    (2 + e.length) / 256 < 256 := by
  have hlt : 2 + e.length < 65536 := by omega
  refine ⟨?_, by omega, ?_⟩
  · rw [spliceOutput_eq]
    have hsh : (2 + e.length) >>> 8 = (2 + e.length) / 256 :=
      Nat.shiftRight_eq_div_pow _ 8
    have hdivlt : (2 + e.length) / 256 < 256 := by
      apply Nat.div_lt_of_lt_mul
      omega
    have hand : (2 + e.length) &&& 0xff = (2 + e.length) % 256 := by
      have := Nat.and_pow_two_sub_one_eq_mod (2 + e.length) 8
      simpa using this
    simp [newWriterExif, hsh, hand, Nat.mod_eq_of_lt hdivlt]
  · apply Nat.div_lt_of_lt_mul
    omega

theorem exif_marker_segment_witness :
    ([7] : List Nat).length + 2 < 65536 ∧
    (spliceOutput (some [7]) [[0xff, 0xd8, 1, 2]] =
      soi ++ [0xff, 0xe1, (2 + ([7] : List Nat).length) / 256, (2 + ([7] : List Nat).length) % 256]
        ++ [7] ++ ([[0xff, 0xd8, 1, 2]] : List (List Nat)).flatten.drop 2 ∧
    256 * ((2 + ([7] : List Nat).length) / 256) + (2 + ([7] : List Nat).length) % 256
      = 2 + ([7] : List Nat).length ∧
    (2 + ([7] : List Nat).length) / 256 < 256) :=
  ⟨by decide, exif_marker_segment [7] [[0xff, 0xd8, 1, 2]] (by decide)⟩

/-- C5: with no EXIF blob (`nil`), the destination receives the SOI
marker followed directly by the encoder bytes with their leading two
bytes discarded — no APP1 marker segment is emitted, and the 2-byte
discard applies exactly as in the metadata-present case. -/
theorem no_exif_no_marker_segment (cs : List (List Nat)) :
    spliceOutput none cs = soi ++ cs.flatten.drop 2 := by
  rw [spliceOutput_eq]
  rfl

/-- C6: single-call semantics of the skipper's `Write`: with `k` bytes
still to discard, up to `k` head bytes of the buffer are consumed
without being forwarded, the remainder is forwarded verbatim, the full
buffer length is reported as written, and the counter decreases by the
number of bytes consumed (reaching `0` once the boundary is passed);
and across any sequence of calls starting from the initial counter `2`,
the sink receives exactly the concatenated bytes minus the first two —
covering both a boundary inside one call and one spanning several
1-byte calls. -/
theorem writer_skipper_write_semantics :
    (∀ (k : Nat) (data : List Nat),
      writerSkipperWrite ⟨k⟩ data = (⟨k - data.length⟩, data.drop k, data.length)) ∧
    (∀ cs : List (List Nat), (writeAll ⟨2⟩ cs).2 = cs.flatten.drop 2) := by
  constructor
  · intro k data
    simp only [writerSkipperWrite]
    by_cases h0 : k = 0
    · subst h0
      simp
    · simp only [h0, if_false]
      by_cases hlt : data.length < k
      · simp only [hlt, if_true]
        rw [List.drop_eq_nil_of_le (Nat.le_of_lt hlt)]
      · simp only [hlt, if_false]
        have : k - data.length = 0 := Nat.sub_eq_zero_of_le (Nat.le_of_not_lt hlt)
        rw [this]
  · intro cs
    exact writeAll_out 2 cs

/-- The loop of `humanReadableFileSize` in `main.go`: starting from
`n := bytes / 1024`, `div := 1024`, `exp := 0`, while `n ≥ 1024` do
`n /= 1024; div *= 1024; exp++`; returns the final `(div, exp)`. -/
def hrLoop (n div exp : Nat) : Nat × Nat :=
  if 1024 ≤ n then hrLoop (n / 1024) (div * 1024) (exp + 1) else (div, exp)
termination_by n
decreasing_by
  exact Nat.div_lt_self (by omega) (by omega)

/-- The divisor `humanReadableFileSize` divides by (`float64(div)` in the
Go code); `1` in the small-size branch where no division happens. -/
def hrDiv (bytes : Nat) : Nat :=
  if bytes < 1024 then 1 else (hrLoop (bytes / 1024) 1024 0).1

/-- The unit exponent chosen by `humanReadableFileSize` (the index into
the `"KMGTPE"` literal); `0` in the small-size branch. -/
def hrExp (bytes : Nat) : Nat :=
  if bytes < 1024 then 0 else (hrLoop (bytes / 1024) 1024 0).2

/-- The displayed magnitude in tenths of a unit: Go's `%.1f` renders
`float64(bytes)/float64(div)` rounded to one decimal; the float
computation is modelled by exact rounding of the rational
`bytes / div` to the nearest tenth (half up). In the small-size branch
the integer `bytes` is printed exactly, i.e. `10 * bytes` tenths of the
1-byte unit. -/
def hrTenths (bytes : Nat) : Nat :=
  if bytes < 1024 then 10 * bytes
  else (10 * bytes + hrDiv bytes / 2) / hrDiv bytes

/-- The unit letters of the Go literal `"KMGTPE"`. -/
def hrUnits : List Char := ['K', 'M', 'G', 'T', 'P', 'E']

/-- `humanReadableFileSize` from `main.go`: `"%dB"` below 1024, else
`"%.1f%cB"` with the loop's divisor and `"KMGTPE"[exp]`. (Indexing the
unit string is total in Go only because `int64` inputs keep
`exp ≤ 5`; the model defaults out of range.) -/
def humanReadableFileSize (bytes : Nat) : String :=
  if bytes < 1024 then toString bytes ++ "B"
  else
    let t := hrTenths bytes
    toString (t / 10) ++ "." ++ toString (t % 10)
      ++ (hrUnits.getD (hrExp bytes) '?').toString ++ "B"

theorem hrLoop_div_pos (n div exp : Nat) (h : 0 < div) :
    0 < (hrLoop n div exp).1 := by
  induction n using Nat.strong_induction_on generalizing div exp with
  | _ n ih =>
    rw [hrLoop]
    by_cases hn : 1024 ≤ n
    · simp only [hn, if_true]
      exact ih (n / 1024) (Nat.div_lt_self (by omega) (by omega)) _ _ (by omega)
    · simpa [hn] using h

/-- C7: `humanReadableFileSize` never divides by zero (its divisor is
positive), and its output parses back to within one display unit of
the input: the printed value is `hrTenths bytes / 10` units of
`hrDiv bytes` bytes each, and `|printed · unit − bytes| ≤ unit`. -/
theorem size_reporter_round_trip (bytes : Nat) (_hrange : bytes < 2 ^ 63) :
    0 < hrDiv bytes ∧
    hrTenths bytes * hrDiv bytes ≤ 10 * bytes + 10 * hrDiv bytes ∧
    10 * bytes ≤ hrTenths bytes * hrDiv bytes + 10 * hrDiv bytes ∧
    humanReadableFileSize bytes =
      (if bytes < 1024 then toString bytes ++ "B"
       else toString (hrTenths bytes / 10) ++ "." ++ toString (hrTenths bytes % 10)
         ++ (hrUnits.getD (hrExp bytes) '?').toString ++ "B") := by
  have hpos : 0 < hrDiv bytes := by
    unfold hrDiv
    by_cases hb : bytes < 1024
    · simp [hb]
    · simp only [hb, if_false]
      exact hrLoop_div_pos _ _ _ (by omega)
  refine ⟨hpos, ?_, ?_, ?_⟩
  · unfold hrTenths
    by_cases hb : bytes < 1024
    · simp [hb, hrDiv]
    · simp only [hb, if_false]
      have h1 : (10 * bytes + hrDiv bytes / 2) / hrDiv bytes * hrDiv bytes
          ≤ 10 * bytes + hrDiv bytes / 2 := Nat.div_mul_le_self _ _
      have h1b : hrDiv bytes / 2 ≤ 10 * hrDiv bytes := by omega
      linarith
  · unfold hrTenths
    by_cases hb : bytes < 1024
    · simp [hb, hrDiv]
    · simp only [hb, if_false]
      have hmod := Nat.div_add_mod' (10 * bytes + hrDiv bytes / 2) (hrDiv bytes)
      have hr2 := Nat.mod_lt (10 * bytes + hrDiv bytes / 2) hpos
      linarith [Nat.zero_le ((10 * bytes + hrDiv bytes / 2) % hrDiv bytes),
        Nat.zero_le (hrDiv bytes / 2)]
  · rfl

theorem size_reporter_round_trip_witness :
    (123456 : Nat) < 2 ^ 63 ∧
    (0 < hrDiv 123456 ∧
    hrTenths 123456 * hrDiv 123456 ≤ 10 * 123456 + 10 * hrDiv 123456 ∧
    10 * 123456 ≤ hrTenths 123456 * hrDiv 123456 + 10 * hrDiv 123456 ∧
    humanReadableFileSize 123456 =
      (if (123456 : Nat) < 1024 then toString (123456 : Nat) ++ "B"
       else toString (hrTenths 123456 / 10) ++ "." ++ toString (hrTenths 123456 % 10)
         ++ (hrUnits.getD (hrExp 123456) '?').toString ++ "B")) :=
  ⟨by norm_num, size_reporter_round_trip 123456 (by norm_num)⟩

/-- `filepath.Ext` on a list of characters: the suffix starting at the
last `.`; empty when there is no dot. (Directory-entry names contain
no path separator.) -/
def extChars : List Char → List Char
  | [] => []
  | c :: cs =>
    match extChars cs with
    | [] => if c = '.' then c :: cs else []
    | r => r

/-- `filepath.Ext` from the Go standard library, for a bare file name. -/
def filepathExt (s : String) : String := String.mk (extChars s.data)

/-- `strings.ToLower`, for the ASCII names this program compares. -/
def goToLower (s : String) : String := String.mk (s.data.map Char.toLower)

/-- `strings.TrimSuffix`: removes `suffix` when `s` ends with it. -/
def goTrimSuffix (s suffix : String) : String :=
  if suffix.data.isSuffixOf s.data then
    String.mk (s.data.take (s.data.length - suffix.data.length))
  else s

/-- One enumerated directory entry together with the outcome the
filesystem/codec environment gives its conversion: `none` means
`convertFile` succeeds, `some e` that it returns the error `e`. -/
structure FileEntry where
  name : String
  convertResult : Option String
deriving Repr, DecidableEq

/-- The lower-cased extension `processFile` filters on. -/
def extLowerOf (name : String) : String := goToLower (filepathExt name)

/-- `processFile` from `main.go`: for a `.heic` entry (case-insensitive
extension match) it records one status string under the file's name —
`"error details: <err>"` on failure, `"converted successfully"` on
success; any other entry yields an empty log item. -/
def processFile (f : FileEntry) : List (String × String) :=
  if extLowerOf f.name = ".heic" then
    match f.convertResult with
    | some e => [(f.name, "error details: " ++ e)]
    | none => [(f.name, "converted successfully")]
  else []

/-- Go-map read with the zero value `[]` for a missing key
(`logs[k]` on the right-hand side). A Go map holds each key at most
once, so the maps of `main.go` are modelled as association lists with
unique keys and first-match lookup. -/
def mapGet : List (String × List String) → String → List String
  | [], _ => []
  | p :: m, k => if p.1 = k then p.2 else mapGet m k

/-- Go-map key-membership test (`_, ok := logs[k]`). -/
def hasKey : List (String × List String) → String → Bool
  | [], _ => false
  | p :: m, k => p.1 = k || hasKey m k

/-- Go-map update `logs[k] = append(logs[k], v)`: extends the entry in
place, or inserts a new key. -/
def mapAppend : List (String × List String) → String → String →
    List (String × List String)
  | [], k, v => [(k, [v])]
  | p :: m, k, v =>
    if p.1 = k then (p.1, p.2 ++ [v]) :: m else p :: mapAppend m k v

/-- Go-map assignment `logs[k] = vs`: replaces the entry, or inserts. -/
def mapSet : List (String × List String) → String → List String →
    List (String × List String)
  | [], k, vs => [(k, vs)]
  | p :: m, k, vs =>
    if p.1 = k then (p.1, vs) :: m else p :: mapSet m k vs

/-- The per-file line `aggregateLogs` appends for a drained key `k`:
`"%s %s > Converted > jpegs/%s.jpg %s"` with the source and destination
sizes read from disk (`sizes k` gives the pair `getFileSize` returns
for the source file and for its `jpegs/<base>.jpg` counterpart; a
missing file reads as size 0). -/
def detailLine (sizes : String → Nat × Nat) (k : String) : String :=
  k ++ " " ++ humanReadableFileSize (sizes k).1 ++ " > Converted > jpegs/"
    ++ goTrimSuffix k (filepathExt k) ++ ".jpg " ++ humanReadableFileSize (sizes k).2

/-- Rendering of a `time.Duration` value (`%v`); the claims never
inspect this text, so the nanosecond count is printed directly. -/
def formatDuration (d : Nat) : String := toString d ++ "ns"

/-- The five general-block lines `aggregateLogs` builds, in their fixed
order. `avg` is the already-computed `totalDuration / totalLogLines`. -/
def generalLines (count totalDur avg totalHeic totalJpeg : Nat) : List String :=
  ["\n" ++ toString count ++ " Files",
   "Total Time Taken==" ++ formatDuration totalDur,
   "Average Time Per File==" ++ formatDuration avg,
   "Total HEIC File Size==" ++ humanReadableFileSize totalHeic,
   "Total JPEG Folder Size==" ++ humanReadableFileSize totalJpeg]

/-- The drain loop of `aggregateLogs`: folds the per-file log items
received from the workers into the logs map and the two running byte
totals. -/
def aggStep (sizes : String → Nat × Nat)
    (st : List (String × List String) × Nat × Nat)
    (logItem : List (String × String)) :
    List (String × List String) × Nat × Nat :=
  logItem.foldl
    (fun st kv =>
      (mapAppend st.1 kv.1 (detailLine sizes kv.1),
       st.2.1 + (sizes kv.1).1, st.2.2 + (sizes kv.1).2))
    st

/-- The logs map after the drain loop, before the general block is
added. -/
def perFileLogs (sizes : String → Nat × Nat)
    (logItems : List (List (String × String))) : List (String × List String) :=
  (logItems.foldl (aggStep sizes) ([], 0, 0)).1

/-- `totalLogLines := len(logs)` in `aggregateLogs`: the number of keys
that received at least one line. -/
def totalFileCount (sizes : String → Nat × Nat)
    (logItems : List (List (String × String))) : Nat :=
  (perFileLogs sizes logItems).length

/-- The running byte totals (`totalHEICSize`, `totalJPEGSize`) after the
drain loop of `aggregateLogs`. -/
def aggTotals (sizes : String → Nat × Nat)
    (logItems : List (List (String × String))) : Nat × Nat :=
  (logItems.foldl (aggStep sizes) ([], 0, 0)).2

/-- `aggregateLogs` from `main.go`. `totalDuration` is the elapsed wall
time in nanoseconds. The Go code computes
`totalDuration / time.Duration(totalLogLines)` unconditionally; when
`totalLogLines = 0` that integer division panics at run time, which
the embedding renders as `none`. -/
def aggregateLogs (sizes : String → Nat × Nat) (totalDuration : Nat)
    (logItems : List (List (String × String))) :
    Option (List (String × List String)) :=
  if totalFileCount sizes logItems = 0 then none
  else some (mapSet (perFileLogs sizes logItems) "general"
    (generalLines (totalFileCount sizes logItems) totalDuration
      (totalDuration / totalFileCount sizes logItems)
      (aggTotals sizes logItems).1 (aggTotals sizes logItems).2))

/-- `saveLogsToFile` from `main.go`: one pass over the map in an
arbitrary iteration order (`order`), skipping the `"general"` key, then
the general entry's lines at the end. Returns the report lines in file
order. -/
def saveLogsToFile (logs : List (String × List String)) (order : List String) :
    List String :=
  (order.foldl (fun acc k => if k = "general" then acc else acc ++ mapGet logs k) [])
    ++ mapGet logs "general"

theorem mapGet_mapAppend_self (m : List (String × List String)) (k : String)
    (v : String) : mapGet (mapAppend m k v) k = mapGet m k ++ [v] := by
  induction m with
  | nil => simp [mapGet, mapAppend]
  | cons p m ih =>
    by_cases h : p.1 = k
    · simp [mapGet, mapAppend, h]
    · simp [mapGet, mapAppend, h, ih]

theorem mapGet_mapAppend_ne (m : List (String × List String)) (k k' : String)
    (v : String) (h : k ≠ k') : mapGet (mapAppend m k v) k' = mapGet m k' := by
  induction m with
  | nil => simp [mapGet, mapAppend, h]
  | cons p m ih =>
    by_cases hp : p.1 = k
    · have hp' : ¬p.1 = k' := by
        rw [hp]
        exact h
      simp [mapGet, mapAppend, hp, hp', h]
    · by_cases hq : p.1 = k'
      · simp [mapGet, mapAppend, hp, hq, Ne.symm h]
      · simp [mapGet, mapAppend, hp, hq, ih]

theorem mapGet_mapSet_self (m : List (String × List String)) (k : String)
    (vs : List String) : mapGet (mapSet m k vs) k = vs := by
  induction m with
  | nil => simp [mapGet, mapSet]
  | cons p m ih =>
    by_cases h : p.1 = k
    · simp [mapGet, mapSet, h]
    · simp [mapGet, mapSet, h, ih]

theorem mapGet_mapSet_ne (m : List (String × List String)) (k k' : String)
    (vs : List String) (h : k ≠ k') : mapGet (mapSet m k vs) k' = mapGet m k' := by
  induction m with
  | nil => simp [mapGet, mapSet, h]
  | cons p m ih =>
    by_cases hp : p.1 = k
    · have hp' : ¬p.1 = k' := by
        rw [hp]
        exact h
      simp [mapGet, mapSet, hp, hp', h]
    · by_cases hq : p.1 = k'
      · simp [mapGet, mapSet, hp, hq, Ne.symm h]
      · simp [mapGet, mapSet, hp, hq, ih]

theorem length_mapAppend (m : List (String × List String)) (k : String)
    (v : String) :
    (mapAppend m k v).length = if hasKey m k then m.length else m.length + 1 := by
  induction m with
  | nil => simp [mapAppend, hasKey]
  | cons p m ih =>
    by_cases h : p.1 = k
    · simp [mapAppend, hasKey, h]
    · simp only [mapAppend, hasKey, h, if_false, List.length_cons, ih,
        decide_eq_true_eq]
      by_cases hk : hasKey m k = true <;> simp [hk, h]

theorem hasKey_mapAppend (m : List (String × List String)) (k k' : String)
    (v : String) :
    hasKey (mapAppend m k v) k' = (hasKey m k' || k = k') := by
  induction m with
  | nil => simp [mapAppend, hasKey, eq_comm]
  | cons p m ih =>
    by_cases h : p.1 = k
    · by_cases hq : p.1 = k'
      · have hkk : k = k' := by
          rw [← h, ← hq]
        simp [mapAppend, hasKey, h, hq, hkk]
      · simp [mapAppend, hasKey, h, hq, ih]
        tauto
    · by_cases hq : p.1 = k'
      · have hkk : ¬(k' = k) := by
          rw [← hq]
          exact h
        simp [mapAppend, hasKey, h, hq, hkk]
      · simp [mapAppend, hasKey, h, hq, ih]

/-- The logs-map effect of one drain-loop step, ignoring the byte
totals. -/
def aggLogsStep (sizes : String → Nat × Nat) (m : List (String × List String))
    (logItem : List (String × String)) : List (String × List String) :=
  logItem.foldl (fun m kv => mapAppend m kv.1 (detailLine sizes kv.1)) m

theorem aggStep_fst (sizes : String → Nat × Nat)
    (st : List (String × List String) × Nat × Nat)
    (item : List (String × String)) :
    (aggStep sizes st item).1 = aggLogsStep sizes st.1 item := by
  induction item generalizing st with
  | nil => rfl
  | cons kv item ih =>
    simp only [aggStep, aggLogsStep, List.foldl_cons] at *
    exact ih _

theorem foldl_aggStep_fst (sizes : String → Nat × Nat)
    (items : List (List (String × String)))
    (st : List (String × List String) × Nat × Nat) :
    (items.foldl (aggStep sizes) st).1 = items.foldl (aggLogsStep sizes) st.1 := by
  induction items generalizing st with
  | nil => rfl
  | cons item items ih =>
    simp only [List.foldl_cons]
    rw [ih, aggStep_fst]

theorem aggLogsStep_processFile (sizes : String → Nat × Nat)
    (m : List (String × List String)) (f : FileEntry) :
    aggLogsStep sizes m (processFile f) =
      if extLowerOf f.name = ".heic" then
        mapAppend m f.name (detailLine sizes f.name)
      else m := by
  by_cases h : extLowerOf f.name = ".heic"
  · cases hc : f.convertResult <;> simp [aggLogsStep, processFile, h, hc]
  · simp [aggLogsStep, processFile, h]

theorem perFileLogs_eq (sizes : String → Nat × Nat) (entries : List FileEntry) :
    perFileLogs sizes (entries.map processFile) =
      entries.foldl
        (fun m f =>
          if extLowerOf f.name = ".heic" then
            mapAppend m f.name (detailLine sizes f.name)
          else m) [] := by
  unfold perFileLogs
  rw [foldl_aggStep_fst, List.foldl_map]
  exact List.foldl_ext _ _ _ fun m f _ => aggLogsStep_processFile sizes m f

/-- The per-entry logs-map step of the drain loop. -/
def entryStep (sizes : String → Nat × Nat) (m : List (String × List String))
    (f : FileEntry) : List (String × List String) :=
  if extLowerOf f.name = ".heic" then
    mapAppend m f.name (detailLine sizes f.name)
  else m

theorem perFileLogs_eq_entryFold (sizes : String → Nat × Nat)
    (entries : List FileEntry) :
    perFileLogs sizes (entries.map processFile) =
      entries.foldl (entryStep sizes) [] := by
  rw [perFileLogs_eq]
  rfl

theorem mapGet_entryFold_not_mem (sizes : String → Nat × Nat)
    (entries : List FileEntry) (m : List (String × List String)) (name : String)
    (h : name ∉ entries.map FileEntry.name) :
    mapGet (entries.foldl (entryStep sizes) m) name = mapGet m name := by
  induction entries generalizing m with
  | nil => rfl
  | cons e entries ih =>
    simp only [List.map_cons, List.mem_cons, not_or] at h
    simp only [List.foldl_cons]
    rw [ih _ h.2]
    unfold entryStep
    by_cases he : extLowerOf e.name = ".heic"
    · simp only [he, if_true]
      exact mapGet_mapAppend_ne _ _ _ _ fun hc => h.1 hc.symm
    · simp [he]

theorem mapGet_entryFold (sizes : String → Nat × Nat) (entries : List FileEntry)
    (m : List (String × List String)) (f : FileEntry) (hf : f ∈ entries)
    (hnd : (entries.map FileEntry.name).Nodup) (hm : mapGet m f.name = []) :
    mapGet (entries.foldl (entryStep sizes) m) f.name =
      if extLowerOf f.name = ".heic" then [detailLine sizes f.name] else [] := by
  induction entries generalizing m with
  | nil => cases hf
  | cons e entries ih =>
    simp only [List.map_cons, List.nodup_cons] at hnd
    simp only [List.foldl_cons]
    rcases List.mem_cons.mp hf with rfl | hmem
    · rw [mapGet_entryFold_not_mem sizes entries _ f.name hnd.1]
      unfold entryStep
      by_cases he : extLowerOf f.name = ".heic"
      · simp only [he, if_true]
        rw [mapGet_mapAppend_self, hm]
        rfl
      · simp [he, hm]
    · apply ih _ hmem hnd.2
      have hne : e.name ≠ f.name := by
        intro hc
        exact hnd.1 (hc ▸ List.mem_map_of_mem FileEntry.name hmem)
      unfold entryStep
      by_cases he : extLowerOf e.name = ".heic"
      · simp only [he, if_true]
        rw [mapGet_mapAppend_ne _ _ _ _ hne, hm]
      · simp [he, hm]

theorem length_entryFold (sizes : String → Nat × Nat) (entries : List FileEntry)
    (m : List (String × List String))
    (hnd : (entries.map FileEntry.name).Nodup)
    (hfresh : ∀ f ∈ entries, extLowerOf f.name = ".heic" → hasKey m f.name = false) :
    (entries.foldl (entryStep sizes) m).length =
      m.length + (entries.filter (fun f => extLowerOf f.name = ".heic")).length := by
  induction entries generalizing m with
  | nil => rfl
  | cons e entries ih =>
    simp only [List.map_cons, List.nodup_cons] at hnd
    by_cases he : extLowerOf e.name = ".heic"
    · have hkey : hasKey m e.name = false :=
        hfresh e (List.mem_cons_self e entries) he
      have hfresh' : ∀ f ∈ entries, extLowerOf f.name = ".heic" →
          hasKey (mapAppend m e.name (detailLine sizes e.name)) f.name = false := by
        intro f hfm hfh
        rw [hasKey_mapAppend]
        have h1 : hasKey m f.name = false :=
          hfresh f (List.mem_cons_of_mem e hfm) hfh
        have h2 : e.name ≠ f.name := by
          intro hc
          exact hnd.1 (hc ▸ List.mem_map_of_mem FileEntry.name hfm)
        simp [h1, h2]
      have hL : (mapAppend m e.name (detailLine sizes e.name)).length
          = m.length + 1 := by
        rw [length_mapAppend, hkey]
        simp
      have hF : ((e :: entries).filter
            (fun f => extLowerOf f.name = ".heic")).length
          = (entries.filter (fun f => extLowerOf f.name = ".heic")).length + 1 := by
        simp [List.filter_cons, he]
      simp only [List.foldl_cons, entryStep, he, if_true]
      rw [ih _ hnd.2 hfresh', hL, hF]
      omega
    · have hF : ((e :: entries).filter
            (fun f => extLowerOf f.name = ".heic")).length
          = (entries.filter (fun f => extLowerOf f.name = ".heic")).length := by
        simp [List.filter_cons, he]
      simp only [List.foldl_cons, entryStep, he, if_false]
      rw [ih m hnd.2 fun f hfm hfh => hfresh f (List.mem_cons_of_mem e hfm) hfh, hF]

/-- C1, amended: every attempted file (one whose lower-cased extension
is `.heic`) gets exactly one detailed report line, but of the form
`"<name> <srcSize> > Converted > jpegs/<base>.jpg <dstSize>"` — the
per-file status strings (`"converted successfully"` /
`"error details: <msg>"`) computed by `processFile` are read only for
their keys by `aggregateLogs` and never reach the report; non-matching
entries produce no detailed line. -/
theorem one_detail_line_per_attempted_file (sizes : String → Nat × Nat)
    (totalDuration : Nat) (entries : List FileEntry)
    (hnd : (entries.map FileEntry.name).Nodup) (f : FileEntry)
    (hf : f ∈ entries) :
    mapGet (perFileLogs sizes (entries.map processFile)) f.name =
      (if extLowerOf f.name = ".heic" then [detailLine sizes f.name] else []) ∧
    (extLowerOf f.name = ".heic" →
      ∀ logs, aggregateLogs sizes totalDuration (entries.map processFile) = some logs →
        mapGet logs f.name = [detailLine sizes f.name]) := by
  have hbase : mapGet (perFileLogs sizes (entries.map processFile)) f.name =
      (if extLowerOf f.name = ".heic" then [detailLine sizes f.name] else []) := by
    rw [perFileLogs_eq_entryFold]
    exact mapGet_entryFold sizes entries [] f hf hnd rfl
  refine ⟨hbase, fun hheic logs hlogs => ?_⟩
  have hng : f.name ≠ "general" := by
    intro hc
    rw [hc] at hheic
    exact absurd hheic (by decide)
  unfold aggregateLogs at hlogs
  by_cases hz : totalFileCount sizes (entries.map processFile) = 0
  · rw [if_pos hz] at hlogs
    cases hlogs
  · rw [if_neg hz, Option.some.injEq] at hlogs
    rw [← hlogs, mapGet_mapSet_ne _ _ _ _ (Ne.symm hng), hbase, if_pos hheic]

theorem one_detail_line_per_attempted_file_witness :
    ([⟨"a.heic", none⟩, ⟨"c.txt", none⟩].map FileEntry.name).Nodup ∧
    (⟨"a.heic", none⟩ : FileEntry) ∈
      ([⟨"a.heic", none⟩, ⟨"c.txt", none⟩] : List FileEntry) ∧
    (mapGet (perFileLogs (fun _ => (0, 0))
        (([⟨"a.heic", none⟩, ⟨"c.txt", none⟩] : List FileEntry).map processFile))
        "a.heic" =
      (if extLowerOf "a.heic" = ".heic" then
        [detailLine (fun _ => (0, 0)) "a.heic"] else []) ∧
    (extLowerOf "a.heic" = ".heic" →
      ∀ logs, aggregateLogs (fun _ => (0, 0)) 1000
          (([⟨"a.heic", none⟩, ⟨"c.txt", none⟩] : List FileEntry).map processFile)
          = some logs →
        mapGet logs "a.heic" = [detailLine (fun _ => (0, 0)) "a.heic"])) :=
  ⟨by decide, by decide,
    one_detail_line_per_attempted_file (fun _ => (0, 0)) 1000
      [⟨"a.heic", none⟩, ⟨"c.txt", none⟩] (by decide) ⟨"a.heic", none⟩ (by decide)⟩

/-- C1, counterexample to the claim as stated: in a batch whose single
entry `b.heic` fails with error `boom`, the one detailed line the
report holds for it is `"b.heic 0B > Converted > jpegs/b.jpg 0B"` —
not a `name==status` line carrying `"error details: boom"`; the very
same line would be produced had the conversion succeeded. -/
theorem detail_line_ignores_status :
    mapGet (perFileLogs (fun _ => (0, 0)) [processFile ⟨"b.heic", some "boom"⟩])
        "b.heic" = ["b.heic 0B > Converted > jpegs/b.jpg 0B"] ∧
    mapGet (perFileLogs (fun _ => (0, 0)) [processFile ⟨"b.heic", none⟩])
        "b.heic" = ["b.heic 0B > Converted > jpegs/b.jpg 0B"] ∧
    "b.heic 0B > Converted > jpegs/b.jpg 0B" ≠ "b.heic==error details: boom" ∧
    "b.heic 0B > Converted > jpegs/b.jpg 0B" ≠ "b.heic==converted successfully" := by
  refine ⟨?_, ?_, by decide, by decide⟩ <;> decide

/-- C2: the code path at the failing input. With a batch holding no
`.heic` entry (here the single entry `c.txt`), `aggregateLogs` reaches
`totalDuration / time.Duration(0)`; the embedding returns `none` where
the Go program panics with an integer divide by zero — there is no
guard. -/
theorem average_division_panics_on_empty_batch :
    aggregateLogs (fun _ => (0, 0)) 1000 [processFile ⟨"c.txt", none⟩] = none ∧
    aggregateLogs (fun _ => (0, 0)) 1000 [] = none := by
  constructor <;> decide

/-- C8: the file count `aggregateLogs` reports in the general block
(`len(logs)` before the general entry is added) equals exactly the
number of enumerated entries whose lower-cased extension is `.heic`,
and so never exceeds the batch size. -/
theorem file_count_exact (sizes : String → Nat × Nat) (entries : List FileEntry)
    (hnd : (entries.map FileEntry.name).Nodup) :
    totalFileCount sizes (entries.map processFile) =
      (entries.filter (fun f => extLowerOf f.name = ".heic")).length ∧
    totalFileCount sizes (entries.map processFile) ≤ entries.length := by
  have h : totalFileCount sizes (entries.map processFile) =
      (entries.filter (fun f => extLowerOf f.name = ".heic")).length := by
    unfold totalFileCount
    rw [perFileLogs_eq_entryFold]
    simpa using length_entryFold sizes entries [] hnd (fun f _ _ => rfl)
  exact ⟨h, h ▸ List.length_filter_le _ _⟩

theorem file_count_exact_witness :
    (([⟨"a.heic", none⟩, ⟨"c.txt", none⟩] : List FileEntry).map FileEntry.name).Nodup ∧
    (totalFileCount (fun _ => (0, 0))
        (([⟨"a.heic", none⟩, ⟨"c.txt", none⟩] : List FileEntry).map processFile) =
      (([⟨"a.heic", none⟩, ⟨"c.txt", none⟩] : List FileEntry).filter
        (fun f => extLowerOf f.name = ".heic")).length ∧
    totalFileCount (fun _ => (0, 0))
        (([⟨"a.heic", none⟩, ⟨"c.txt", none⟩] : List FileEntry).map processFile) ≤
      ([⟨"a.heic", none⟩, ⟨"c.txt", none⟩] : List FileEntry).length) :=
  ⟨by decide, file_count_exact (fun _ => (0, 0))
    [⟨"a.heic", none⟩, ⟨"c.txt", none⟩] (by decide)⟩

theorem saveLogs_foldl_filter (logs : List (String × List String))
    (order : List String) (acc : List String) :
    order.foldl (fun acc k => if k = "general" then acc else acc ++ mapGet logs k)
        acc =
      acc ++ (order.filter (fun k => ¬k = "general")).flatMap (fun k => mapGet logs k) := by
  induction order generalizing acc with
  | nil => simp
  | cons k order ih =>
    simp only [List.foldl_cons, List.filter_cons]
    by_cases hk : k = "general"
    · simp [hk, ih]
    · simp only [hk, if_false, decide_not, ih, decide_eq_true_eq]
      simp [hk, List.append_assoc]

/-- C9: however the name-keyed map is iterated (`order`) and whatever
the insertion order of the per-file entries was, the serialized report
is the per-file lines of the non-`general` keys followed by the whole
general block: the `general` entry's lines always come last. -/
theorem general_block_written_last (sizes : String → Nat × Nat)
    (totalDuration : Nat) (logItems : List (List (String × String)))
    (order : List String) (h : perFileLogs sizes logItems ≠ []) :
    ∃ logs, aggregateLogs sizes totalDuration logItems = some logs ∧
      mapGet logs "general" ≠ [] ∧
      (∀ k, k ≠ "general" → mapGet logs k = mapGet (perFileLogs sizes logItems) k) ∧
      saveLogsToFile logs order =
        (order.filter (fun k => ¬k = "general")).flatMap (fun k => mapGet logs k)
          ++ mapGet logs "general" := by
  have hz : ¬totalFileCount sizes logItems = 0 := by
    intro hc
    exact h (List.length_eq_zero.mp hc)
  have heq : aggregateLogs sizes totalDuration logItems =
      some (mapSet (perFileLogs sizes logItems) "general"
        (generalLines (totalFileCount sizes logItems) totalDuration
          (totalDuration / totalFileCount sizes logItems)
          (aggTotals sizes logItems).1 (aggTotals sizes logItems).2)) := by
    unfold aggregateLogs
    rw [if_neg hz]
  refine ⟨_, heq, ?_, ?_, ?_⟩
  · rw [mapGet_mapSet_self]
    simp [generalLines]
  · intro k hk
    exact mapGet_mapSet_ne _ _ _ _ (Ne.symm hk)
  · unfold saveLogsToFile
    rw [saveLogs_foldl_filter]
    rfl

/-- One step of `convertHeicToJpg`, in source order. `removeDst` names
the destination-cleanup action the function never performs. -/
inductive ConvStep where
  | openSrc
  | extractMeta
  | seekStart
  | decodePixels
  | openDst
  | mkWriter
  | encode
  | removeDst
deriving Repr, DecidableEq

/-- The filesystem/codec environment one call of `convertHeicToJpg` runs
against: the outcome of each external operation it invokes.
`extractExifResult` may succeed with `none` (no metadata is a non-error
result); `writeHeaderErr` is a failure of the destination writes that
`newWriterExif` itself performs; `seekErr` is the result of
`fileInput.Seek(0, 0)`. -/
structure ConvertEnv where
  openInputErr : Option String
  extractExifResult : Except String (Option (List Nat))
  seekErr : Option String
  decodeErr : Option String
  openOutputErr : Option String
  writeHeaderErr : Option String
  encodeErr : Option String
deriving Repr

/-- The full step sequence of a successful conversion, in source
order. -/
def stepOrder : List ConvStep :=
  [.openSrc, .extractMeta, .seekStart, .decodePixels, .openDst, .mkWriter, .encode]

/-- `convertHeicToJpg` from `main.go`: the steps it performs, in order,
paired with the error it returns (`none` = success). Every `err != nil`
check returns the error immediately — except `fileInput.Seek(0, 0)`,
whose return values the source discards. -/
def convertHeicToJpg (env : ConvertEnv) : List ConvStep × Option String :=
  match env.openInputErr with
  | some e => ([.openSrc], some e)
  | none =>
    match env.extractExifResult with
    | .error e => ([.openSrc, .extractMeta], some e)
    | .ok _exif =>
      match env.decodeErr with
      | some e => ([.openSrc, .extractMeta, .seekStart, .decodePixels], some e)
      | none =>
        match env.openOutputErr with
        | some e =>
          ([.openSrc, .extractMeta, .seekStart, .decodePixels, .openDst], some e)
        | none =>
          match env.writeHeaderErr with
          | some e =>
            ([.openSrc, .extractMeta, .seekStart, .decodePixels, .openDst,
              .mkWriter], some e)
          | none =>
            match env.encodeErr with
            | some e => (stepOrder, some e)
            | none => (stepOrder, none)

/-- Modelled from the spec: the per-file conversion contract of §4.2 as
the claim reads it — every listed step, the stream reposition included,
"can fail independently and must short-circuit further work on
failure", with the failure propagated as-is. Used only to compare the
claimed behavior against `convertHeicToJpg`. -/
def convertSpecSteps (env : ConvertEnv) : List ConvStep × Option String :=
  match env.openInputErr with
  | some e => ([.openSrc], some e)
  | none =>
    match env.extractExifResult with
    | .error e => ([.openSrc, .extractMeta], some e)
    | .ok _exif =>
      match env.seekErr with
      | some e => ([.openSrc, .extractMeta, .seekStart], some e)
      | none =>
        match env.decodeErr with
        | some e => ([.openSrc, .extractMeta, .seekStart, .decodePixels], some e)
        | none =>
          match env.openOutputErr with
          | some e =>
            ([.openSrc, .extractMeta, .seekStart, .decodePixels, .openDst], some e)
          | none =>
            match env.writeHeaderErr with
            | some e =>
              ([.openSrc, .extractMeta, .seekStart, .decodePixels, .openDst,
                .mkWriter], some e)
            | none =>
              match env.encodeErr with
              | some e => (stepOrder, some e)
              | none => (stepOrder, none)

/-- The first error among the operations whose result the source
checks, in source order; the seek result is absent because the source
discards it. -/
def firstFailure (env : ConvertEnv) : Option String :=
  match env.openInputErr with
  | some e => some e
  | none =>
    match env.extractExifResult with
    | .error e => some e
    | .ok _ =>
      match env.decodeErr with
      | some e => some e
      | none =>
        match env.openOutputErr with
        | some e => some e
        | none =>
          match env.writeHeaderErr with
          | some e => some e
          | none => env.encodeErr

/-- An environment in which only the stream reposition fails. -/
def seekFailEnv : ConvertEnv :=
  ⟨none, .ok none, some "seek failed", none, none, none, none⟩

/-- C10, counterexample to the claim as stated: when only the
reposition (`Seek`) step fails, `convertHeicToJpg` ignores the error —
it runs every remaining step and reports success — while the claimed
contract short-circuits after the reposition step and propagates its
error. -/
theorem seek_failure_ignored :
    seekFailEnv.seekErr = some "seek failed" ∧
    convertHeicToJpg seekFailEnv = (stepOrder, none) ∧
    convertSpecSteps seekFailEnv =
      ([.openSrc, .extractMeta, .seekStart], some "seek failed") ∧
    convertHeicToJpg seekFailEnv ≠ convertSpecSteps seekFailEnv := by
  refine ⟨rfl, rfl, rfl, ?_⟩
  decide

/-- C10, amended: `convertHeicToJpg` performs its steps in the fixed
source order (its trace is a prefix of
open-source / extract-metadata / reposition / decode / open-destination
/ construct-writer / encode); a failure of any step other than the
reposition short-circuits all further steps and is returned as-is (the
first failing checked operation's error); the reposition step's failure
is silently discarded and changes nothing; the full sequence runs iff
every step before the final encode succeeded; and no destination
cleanup is ever performed. -/
theorem conversion_short_circuit (env : ConvertEnv) :
    (convertHeicToJpg env).1 <+: stepOrder ∧
    (convertHeicToJpg env).2 = firstFailure env ∧
    convertHeicToJpg env = convertHeicToJpg { env with seekErr := none } ∧
    ((convertHeicToJpg env).1 = stepOrder ↔
      (env.openInputErr = none ∧ (∃ x, env.extractExifResult = .ok x) ∧
       env.decodeErr = none ∧ env.openOutputErr = none ∧
       env.writeHeaderErr = none)) ∧
    ConvStep.removeDst ∉ (convertHeicToJpg env).1 := by
  obtain ⟨o, ex, sk, de, oo, wh, en⟩ := env
  cases o <;> cases ex <;> cases de <;> cases oo <;> cases wh <;> cases en <;>
    simp [convertHeicToJpg, firstFailure, stepOrder]

theorem general_block_written_last_witness :
    perFileLogs (fun _ => (0, 0)) [[("a.heic", "converted successfully")]] ≠ [] ∧
    (∃ logs, aggregateLogs (fun _ => (0, 0)) 1000
        [[("a.heic", "converted successfully")]] = some logs ∧
      mapGet logs "general" ≠ [] ∧
      (∀ k, k ≠ "general" →
        mapGet logs k =
          mapGet (perFileLogs (fun _ => (0, 0))
            [[("a.heic", "converted successfully")]]) k) ∧
      saveLogsToFile logs ["general", "a.heic"] =
        ((["general", "a.heic"] : List String).filter
          (fun k => ¬k = "general")).flatMap (fun k => mapGet logs k)
          ++ mapGet logs "general") :=
  ⟨by decide, general_block_written_last (fun _ => (0, 0)) 1000
    [[("a.heic", "converted successfully")]] ["general", "a.heic"] (by decide)⟩

end HeicToJpeg
